import Mathlib

set_option linter.unusedVariables false

/-!
Shallow embedding of the KPI pipeline of `src/app.py` (a pandas/streamlit
business-performance dashboard) and verification of the specification's
claims about it.

Modelling conventions:
* A pandas float cell is a `PVal`: `nan` (missing, `NaT`/`NaN`), `inf`,
  `neginf`, or a finite rational `num q`.  Arithmetic on `PVal` follows
  IEEE-754 / numpy semantics for these cases exactly (division by zero
  with a nonzero numerator gives a signed infinity, `0/0` and any
  operation touching `nan` give `nan`); exact rational arithmetic is used
  in place of floating point rounding, which does not affect any
  definedness question settled here.
* Calendar months are modelled as naturals (`pd.Timestamp` months are
  totally ordered and only their order is used); product labels are
  modelled as naturals (only equality and a fixed linear order on labels
  are used by the code).
* pandas reductions keep their library semantics: `Series.sum`/`mean`
  skip `nan` (`skipna=True` default), the sum of an empty or all-`nan`
  series is `0`, the mean of one is `nan`.
* Raised Python exceptions are modelled as `none`/`Option` results.
-/

/-- Value of one numeric pandas cell: missing (`NaN`), a signed infinity, or a
finite rational. -/
inductive PVal where
  | nan
  | inf
  | neginf
  | num (q : ℚ)
deriving DecidableEq, Repr

namespace PVal

/-- IEEE/numpy division as performed by pandas column division: any `nan`
operand gives `nan`; a zero denominator gives `nan` for a zero numerator and a
signed infinity otherwise; division of a finite value by an infinity gives `0`;
`inf/inf` style quotients give `nan`. -/
def pdiv : PVal → PVal → PVal
  | nan, _ => nan
  | _, nan => nan
  | num a, num b =>
      if b = 0 then (if a = 0 then nan else if 0 < a then inf else neginf)
      else num (a / b)
  | inf, num b => if 0 ≤ b then inf else neginf
  | neginf, num b => if 0 ≤ b then neginf else inf
  | num _, inf => num 0
  | num _, neginf => num 0
  | inf, inf => nan
  | inf, neginf => nan
  | neginf, inf => nan
  | neginf, neginf => nan

/-- IEEE/numpy addition: `nan` absorbs, opposite infinities give `nan`. -/
def padd : PVal → PVal → PVal
  | nan, _ => nan
  | _, nan => nan
  | inf, inf => inf
  | inf, neginf => nan
  | neginf, inf => nan
  | neginf, neginf => neginf
  | inf, num _ => inf
  | num _, inf => inf
  | neginf, num _ => neginf
  | num _, neginf => neginf
  | num a, num b => num (a + b)

/-- IEEE negation. -/
def pneg : PVal → PVal
  | nan => nan
  | inf => neginf
  | neginf => inf
  | num a => num (-a)

/-- IEEE subtraction, `a - b = a + (-b)`. -/
def psub (a b : PVal) : PVal := padd a (pneg b)

/-- pandas `pd.notna`: true on every value except `NaN`. -/
def pnotna (v : PVal) : Bool := decide (v ≠ nan)

/-- Python float truthiness (`if rev_prev:`): only `0.0` is falsy; `nan` and
the infinities are truthy. -/
def truthy (v : PVal) : Bool := decide (v ≠ num 0)

end PVal

open PVal

/-- pandas `Series.sum` with its default `skipna=True`: `nan` entries are
dropped and the remaining values are added up; an empty (or all-`nan`) series
sums to `0`. -/
def psum (l : List PVal) : PVal :=
  (l.filter (fun v => pnotna v)).foldl padd (num 0)

/-- pandas `Series.mean` with its default `skipna=True`: `nan` entries are
dropped; the mean of nothing is `nan`, otherwise sum of the surviving entries
divided by their count. -/
def pmean (l : List PVal) : PVal :=
  let vs := l.filter (fun v => pnotna v)
  if vs.isEmpty then nan else pdiv (vs.foldl padd (num 0)) (num (vs.length : ℚ))

/-- One input record after date normalisation (`Month` parsed to a comparable
calendar-month ordinal). -/
structure Row where
  month : ℕ
  product : ℕ
  leads : PVal
  new_customers : PVal
  churned_customers : PVal
  active_customers : PVal
  revenue : PVal
deriving DecidableEq, Repr

/-- One record of the KPI-augmented table returned by `compute_kpis`: the
original record plus exactly the four derived columns the code adds. -/
structure AugRow where
  base : Row
  conversion_rate : PVal
  churn_rate : PVal
  arpu : PVal
  rev_mom_growth : PVal
deriving DecidableEq, Repr

/-- One raw input record as loaded from the spreadsheet, before the `Month`
column is parsed: the month is still raw text. -/
structure RawRow where
  month_text : String
  product : ℕ
  leads : PVal
  new_customers : PVal
  churned_customers : PVal
  active_customers : PVal
  revenue : PVal
deriving DecidableEq, Repr

/-! ### validate_columns (app.py lines 30-33) -/

/-- Required column names, `REQUIRED_COLS` of app.py. -/
def REQUIRED_COLS : List String :=
  ["Month", "Product", "Leads", "New_Customers", "Churned_Customers",
   "Active_Customers", "Revenue"]

/-- Embedding of `validate_columns`: `missing = [c for c in REQUIRED_COLS if c
not in df.columns]`; a nonempty `missing` raises (modelled as `some missing`,
the list carried in the error message); otherwise no error (`none`). -/
def validate_columns (cols : List String) : Option (List String) :=
  let missing := REQUIRED_COLS.filter (fun c => decide (c ∉ cols))
  if missing.isEmpty then none else some missing

/-! ### parse_month (app.py lines 35-42)

The two `pd.to_datetime` calls are modelled with the string parsers as
parameters: `strict` is `pd.to_datetime(·, format="%b-%Y", errors="coerce")`
on one raw string, `general` is the locale-flexible
`pd.to_datetime(·, errors="coerce")` on one raw string; both return `none`
for unparseable input (coerced `NaT`). -/

/-- pandas semantics of the second `pd.to_datetime(df["Month"],
errors="coerce")` call of `parse_month`: at that point `df["Month"]` has
already been overwritten by the first call, so its cells are datetimes or
`NaT`, not the original strings; on such a column `to_datetime` is the
identity (a `Timestamp` maps to itself, `NaT` stays `NaT`) and the `general`
string parser is never consulted. -/
def to_datetime_on_datetime (general : String → Option ℕ) (c : Option ℕ) :
    Option ℕ := c

/-- Embedding of the `Month` column transformation of `parse_month`: first the
strict `%b-%Y` parse with coercion, then — if any cell is `NaT` — the second
`to_datetime` applied to the already-coerced column, then the all-or-nothing
check raising `DateParseError` (`none`) if any `NaT` remains. -/
def parse_month_col (strict general : String → Option ℕ) (col : List String) :
    Option (List ℕ) :=
  let step1 := col.map strict
  let step2 :=
    if step1.any (fun c => c.isNone) then
      step1.map (to_datetime_on_datetime general)
    else step1
  if step2.any (fun c => c.isNone) then none
  else some (step2.map (fun c => c.getD 0))

/-- Attach a parsed month to a raw record; all other columns are untouched by
`parse_month` (it only assigns `df["Month"]` on a copy). -/
def toRow (r : RawRow) (m : ℕ) : Row :=
  { month := m, product := r.product, leads := r.leads,
    new_customers := r.new_customers, churned_customers := r.churned_customers,
    active_customers := r.active_customers, revenue := r.revenue }

/-- Embedding of `parse_month` on the whole table: parse the `Month` column,
keep every other column of every row unchanged. -/
def parse_month_rows (strict general : String → Option ℕ)
    (rows : List RawRow) : Option (List Row) :=
  match parse_month_col strict general (rows.map (fun r => r.month_text)) with
  | none => none
  | some ms => some ((rows.zip ms).map (fun p => toRow p.1 p.2))

/-! ### compute_kpis (app.py lines 44-51) -/

/-- Sort key order of `df.sort_values(["Product", "Month"])`: lexicographic on
(product, month), both ascending. -/
def rowKeyLe (a b : Row) : Prop :=
  a.product < b.product ∨ (a.product = b.product ∧ a.month ≤ b.month)

instance : DecidableRel rowKeyLe := fun a b => by
  unfold rowKeyLe; exact inferInstance

instance : IsTotal Row rowKeyLe where
  total a b := by
    rcases Nat.lt_trichotomy a.product b.product with h | h | h
    · exact Or.inl (Or.inl h)
    · rcases Nat.le_total a.month b.month with hm | hm
      · exact Or.inl (Or.inr ⟨h, hm⟩)
      · exact Or.inr (Or.inr ⟨h.symm, hm⟩)
    · exact Or.inr (Or.inl h)

instance : IsTrans Row rowKeyLe where
  trans a b c hab hbc := by
    rcases hab with h1 | ⟨h1, h1m⟩
    · rcases hbc with h2 | ⟨h2, _⟩
      · exact Or.inl (Nat.lt_trans h1 h2)
      · exact Or.inl (h2 ▸ h1)
    · rcases hbc with h2 | ⟨h2, h2m⟩
      · exact Or.inl (h1 ▸ h2)
      · exact Or.inr ⟨h1.trans h2, Nat.le_trans h1m h2m⟩

/-- Embedding of `df.sort_values(["Product", "Month"])`. -/
def sortRows (rows : List Row) : List Row := List.insertionSort rowKeyLe rows

/-- First element of the list with the given product, if any. -/
def firstWith (p : ℕ) : List Row → Option Row
  | [] => none
  | s :: ss => if s.product = p then some s else firstWith p ss

/-- pandas `groupby("Product")["Revenue"].pct_change()` for one row: `seen` is
the reversed list of rows preceding it in the (sorted) frame, so
`firstWith r.product seen` is the nearest preceding row of the same product;
no such row gives `NaN`, otherwise `current/previous - 1`. -/
def pctChange (r : Row) (seen : List Row) : PVal :=
  match firstWith r.product seen with
  | none => PVal.nan
  | some prevRow => psub (pdiv r.revenue prevRow.revenue) (PVal.num 1)

/-- Derived columns of one record: the three per-row ratios of
`compute_kpis` and its month-over-month growth cell. -/
def augment (r : Row) (seen : List Row) : AugRow :=
  { base := r,
    conversion_rate := pdiv r.new_customers r.leads,
    churn_rate := pdiv r.churned_customers r.active_customers,
    arpu := pdiv r.revenue r.active_customers,
    rev_mom_growth := pctChange r seen }

/-- Walk of the sorted frame accumulating the reversed prefix of already
visited rows (the state `groupby ... pct_change` effectively threads). -/
def kpisAux : List Row → List Row → List AugRow
  | _, [] => []
  | seen, r :: rs => augment r seen :: kpisAux (r :: seen) rs

/-- Embedding of `compute_kpis`: per-row ratios, sort by (Product, Month),
per-product `pct_change` of `Revenue`.  The ratio columns are per-row, so
computing them during the walk of the sorted frame yields the same cell values
as the code's compute-then-sort order. -/
def compute_kpis (rows : List Row) : List AugRow := kpisAux [] (sortRows rows)

/-! ### Filtering (app.py lines 114-118) -/

/-- Embedding of `f = df[(df["Month"] >= start) & (df["Month"] <= end)]`. -/
def monthFilter (s e : ℕ) (df : List AugRow) : List AugRow :=
  df.filter (fun r => decide (s ≤ r.base.month) && decide (r.base.month ≤ e))

/-- Embedding of the filter block: month-range mask, then — unless the
selector is "All" (`none`) — the product mask. -/
def applyFilter (product : Option ℕ) (s e : ℕ) (df : List AugRow) :
    List AugRow :=
  let f := monthFilter s e df
  match product with
  | none => f
  | some p => f.filter (fun r => decide (r.base.product = p))

/-- Both filter steps of `applyFilter` fused into one row predicate. -/
def keepRow (product : Option ℕ) (s e : ℕ) (r : AugRow) : Bool :=
  (decide (s ≤ r.base.month) && decide (r.base.month ≤ e)) &&
    (match product with
     | none => true
     | some p => decide (r.base.product = p))

/-! ### Summary KPIs (app.py lines 123-135) -/

def revenueCol (f : List AugRow) : List PVal := f.map (fun r => r.base.revenue)

def monthCol (f : List AugRow) : List ℕ := f.map (fun r => r.base.month)

def productCol (f : List AugRow) : List ℕ := f.map (fun r => r.base.product)

/-- Embedding of `f["Revenue"].sum()`. -/
def total_revenue (f : List AugRow) : PVal := psum (revenueCol f)

/-- Embedding of `f["conversion_rate"].mean()`. -/
def avg_conv (f : List AugRow) : PVal :=
  pmean (f.map (fun r => r.conversion_rate))

/-- Embedding of `f["churn_rate"].mean()`. -/
def avg_churn (f : List AugRow) : PVal := pmean (f.map (fun r => r.churn_rate))

/-- Embedding of `f["arpu"].mean()`. -/
def avg_arpu (f : List AugRow) : PVal := pmean (f.map (fun r => r.arpu))

/-- Maximum of a column, `Series.max()` / python `max`; `none` on empty. -/
def colMax : List ℕ → Option ℕ
  | [] => none
  | x :: xs =>
    match colMax xs with
    | none => some x
    | some m => some (max x m)

/-- Embedding of `sorted(f["Month"].unique())`: the distinct months of the
filtered subset in ascending order (`unique` keeps one copy of each value;
its traversal order is irrelevant once sorted). -/
def uniqueMonthsSorted (f : List AugRow) : List ℕ :=
  List.insertionSort (fun a b => a ≤ b) (monthCol f).dedup

/-- Summed revenue of the rows of one month,
`f[f["Month"] == m]["Revenue"].sum()`. -/
def sumRevAt (f : List AugRow) (m : ℕ) : PVal :=
  psum ((f.filter (fun r => decide (r.base.month = m))).map
    (fun r => r.base.revenue))

/-- Embedding of the summary MoM-growth block (app.py lines 128-135):
`None` unless at least two distinct months survive the filter; then compare
`latest_month = f["Month"].max()` with `prev = sorted(f["Month"].unique())[-2]`
(second-to-last of the ascending distinct months, i.e. `ms.dropLast.getLast?`),
summing revenue over the rows of each; python truthiness (`if rev_prev`) maps
`0.0` to `None` and divides otherwise. -/
def mom_growth (f : List AugRow) : Option PVal :=
  let ms := uniqueMonthsSorted f
  if 2 ≤ ms.length then
    match colMax (monthCol f), ms.dropLast.getLast? with
    | some latest, some prev =>
      let rev_latest := sumRevAt f latest
      let rev_prev := sumRevAt f prev
      if truthy rev_prev then
        some (pdiv (psub rev_latest rev_prev) rev_prev)
      else none
    | _, _ => none
  else none

/-! ### Per-product aggregate and insight labels (app.py lines 223-235) -/

/-- One row of the `by_product` aggregate frame. -/
structure ProdAgg where
  product : ℕ
  revenue : PVal
  arpu : PVal
  churn : PVal
  conversion : PVal
deriving DecidableEq, Repr

/-- Aggregates of one product group: revenue sum and the three means. -/
def aggFor (f : List AugRow) (p : ℕ) : ProdAgg :=
  let g := f.filter (fun r => decide (r.base.product = p))
  { product := p,
    revenue := psum (g.map (fun r => r.base.revenue)),
    arpu := pmean (g.map (fun r => r.arpu)),
    churn := pmean (g.map (fun r => r.churn_rate)),
    conversion := pmean (g.map (fun r => r.conversion_rate)) }

/-- Embedding of the `by_product` groupby-agg: one aggregate row per distinct
product of the filtered subset (`groupby` sorts the group keys). -/
def by_product (f : List AugRow) : List ProdAgg :=
  (List.insertionSort (fun a b => a ≤ b) (productCol f).dedup).map (aggFor f)

/-- pandas descending `sort_values` comparison on a float column: `NaN` is
always placed last, infinities compare as usual. -/
def pvalDescBefore (a b : PVal) : Bool :=
  match a, b with
  | PVal.nan, PVal.nan => true
  | PVal.nan, _ => false
  | _, PVal.nan => true
  | PVal.inf, _ => true
  | PVal.num _, PVal.inf => false
  | PVal.neginf, PVal.inf => false
  | PVal.num _, PVal.neginf => true
  | PVal.neginf, PVal.neginf => true
  | PVal.neginf, PVal.num _ => false
  | PVal.num a, PVal.num b => decide (b ≤ a)

/-- pandas ascending `sort_values` comparison on a float column, `NaN` last. -/
def pvalAscBefore (a b : PVal) : Bool :=
  match a, b with
  | PVal.nan, PVal.nan => true
  | PVal.nan, _ => false
  | _, PVal.nan => true
  | PVal.neginf, _ => true
  | PVal.num _, PVal.neginf => false
  | PVal.inf, PVal.neginf => false
  | PVal.num _, PVal.inf => true
  | PVal.inf, PVal.inf => true
  | PVal.inf, PVal.num _ => false
  | PVal.num a, PVal.num b => decide (a ≤ b)

/-- Embedding of `by_product.sort_values("revenue", ascending=False)
.iloc[0]["Product"]`: `none` models the `IndexError` that `.iloc[0]` raises on
an empty frame (a crash, not a gracefully absent label). -/
def top_rev (agg : List ProdAgg) : Option ℕ :=
  (List.insertionSort (fun a b => pvalDescBefore a.revenue b.revenue = true)
    agg).head?.map (fun r => r.product)

/-- Embedding of `by_product.sort_values("arpu", ascending=False)
.iloc[0]["Product"]`; `none` models the empty-frame `IndexError`. -/
def top_arpu (agg : List ProdAgg) : Option ℕ :=
  (List.insertionSort (fun a b => pvalDescBefore a.arpu b.arpu = true)
    agg).head?.map (fun r => r.product)

/-- Embedding of `by_product.sort_values("churn").iloc[0]["Product"]`;
`none` models the empty-frame `IndexError`. -/
def low_churn (agg : List ProdAgg) : Option ℕ :=
  (List.insertionSort (fun a b => pvalAscBefore a.churn b.churn = true)
    agg).head?.map (fun r => r.product)

/-! ### The whole filter-and-aggregate pass -/

/-- Everything the render pass derives from the filtered subset. -/
structure FilteredResult where
  subset : List AugRow
  totalRevenue : PVal
  avgConv : PVal
  avgChurn : PVal
  avgArpu : PVal
  momGrowth : Option PVal
  byProduct : List ProdAgg
  topRevLabel : Option ℕ
  topArpuLabel : Option ℕ
  lowChurnLabel : Option ℕ
deriving DecidableEq, Repr

/-- One full filter-driven aggregation pass over the KPI-augmented table, the
`filter_and_aggregate(product_selector, month_range)` operation of the spec. -/
def filter_and_aggregate (df : List AugRow) (product : Option ℕ) (s e : ℕ) :
    FilteredResult :=
  let f := applyFilter product s e df
  { subset := f,
    totalRevenue := total_revenue f,
    avgConv := avg_conv f,
    avgChurn := avg_churn f,
    avgArpu := avg_arpu f,
    momGrowth := mom_growth f,
    byProduct := by_product f,
    topRevLabel := top_rev (by_product f),
    topArpuLabel := top_arpu (by_product f),
    lowChurnLabel := low_churn (by_product f) }

/-- Embedding of `load_data`: validate the header, parse the month column,
compute the KPI columns; any raised error gives `none`. -/
def load_data (strict general : String → Option ℕ) (cols : List String)
    (raws : List RawRow) : Option (List AugRow) :=
  match validate_columns cols with
  | some _ => none
  | none =>
    match parse_month_rows strict general raws with
    | none => none
    | some rows => some (compute_kpis rows)

/-! ### Spec-side reference definitions (for refinement claims) -/

/-- Reference form of the C5 predecessor: among the table's rows of the same
product with a strictly earlier month, the one with the chronologically latest
month (the claim's `prev`, never a row of a different product). -/
def prevRowSpec (rows : List Row) (r : Row) : Option Row :=
  List.argmax (fun x => x.month)
    (rows.filter (fun x => decide (x.product = r.product) &&
      decide (x.month < r.month)))

/-- Reference form of the C6 summary growth: the two most recent distinct
months of the filtered subset, directly as "the maximum month" and "the
maximum of the remaining distinct months"; undefined when fewer than two
distinct months survive or the prior month's summed revenue is zero. -/
def mom_growth_spec (f : List AugRow) : Option PVal :=
  let months := (monthCol f).dedup
  match colMax months with
  | none => none
  | some m1 =>
    match colMax (months.filter (fun m => decide (m ≠ m1))) with
    | none => none
    | some m2 =>
      if sumRevAt f m2 = PVal.num 0 then none
      else some (pdiv (psub (sumRevAt f m1) (sumRevAt f m2)) (sumRevAt f m2))

/-! ### Helper lemmas -/

/-- Both filter steps of the code equal one filter by the fused predicate. -/
lemma applyFilter_eq_filter (p : Option ℕ) (s e : ℕ) (df : List AugRow) :
    applyFilter p s e df = df.filter (keepRow p s e) := by
  cases p with
  | none =>
    simp only [applyFilter, monthFilter]
    exact List.filter_congr (fun x hx => by simp [keepRow])
  | some q =>
    simp only [applyFilter, monthFilter, keepRow]
    rw [List.filter_filter]
    exact List.filter_congr (fun x hx => by
      simp only [keepRow]; exact Bool.and_comm _ _)

/-- Filtering is idempotent on the subset. -/
lemma applyFilter_idem (p : Option ℕ) (s e : ℕ) (df : List AugRow) :
    applyFilter p s e (applyFilter p s e df) = applyFilter p s e df := by
  simp only [applyFilter_eq_filter]
  rw [List.filter_filter]
  exact List.filter_congr (fun x hx => Bool.and_self _)

/-- Characterисation of a raised `SchemaError`. -/
lemma validate_columns_eq_some (cols : List String) (m : List String) :
    validate_columns cols = some m ↔
      m = REQUIRED_COLS.filter (fun c => decide (c ∉ cols)) ∧ m ≠ [] := by
  unfold validate_columns
  rcases em (REQUIRED_COLS.filter (fun c => decide (c ∉ cols)) = []) with h | h
  · rw [if_pos (List.isEmpty_iff.mpr h)]
    constructor
    · intro hx; exact absurd hx (by simp)
    · rintro ⟨rfl, hne⟩; exact absurd h hne
  · rw [if_neg (fun hc => h (List.isEmpty_iff.mp hc))]
    constructor
    · intro hx; injection hx with hx; exact ⟨hx.symm, hx ▸ h⟩
    · rintro ⟨rfl, _⟩; rfl

/-! ### Claim C7 -/

/-- C7: the filter-and-aggregate operation is pure and idempotent — in this
embedding every operation is a function of its arguments, and the source table
is an immutable value, so no mutation is representable at all; two calls with
identical arguments are definitionally identical, and reapplying the filter to
its own output returns the subset unchanged (the substantive conjunct). -/
theorem c7_filter_and_aggregate_pure_idem (df : List AugRow) (p : Option ℕ)
    (s e : ℕ) :
    filter_and_aggregate df p s e = filter_and_aggregate df p s e ∧
    applyFilter p s e (applyFilter p s e df) = applyFilter p s e df :=
  ⟨rfl, applyFilter_idem p s e df⟩

/-! ### Claim C8 -/

/-- C8: a `SchemaError` is raised iff at least one of the seven required
columns is absent from the loaded table's header, and the raised error carries
exactly the missing required columns — every missing one and no other. -/
theorem c8_schema_error_iff_missing (cols : List String) :
    ((validate_columns cols).isSome ↔ ∃ c ∈ REQUIRED_COLS, c ∉ cols) ∧
    (∀ m, validate_columns cols = some m →
      ∀ c, (c ∈ m ↔ c ∈ REQUIRED_COLS ∧ c ∉ cols)) := by
  constructor
  · constructor
    · intro h
      rcases Option.isSome_iff_exists.mp h with ⟨m, hm⟩
      rcases (validate_columns_eq_some cols m).mp hm with ⟨rfl, hne⟩
      rcases List.exists_mem_of_ne_nil _ hne with ⟨c, hc⟩
      rcases List.mem_filter.mp hc with ⟨hcr, hcd⟩
      exact ⟨c, hcr, of_decide_eq_true hcd⟩
    · rintro ⟨c, hcr, hcn⟩
      have hc : c ∈ REQUIRED_COLS.filter (fun c => decide (c ∉ cols)) :=
        List.mem_filter.mpr ⟨hcr, decide_eq_true hcn⟩
      have : validate_columns cols =
          some (REQUIRED_COLS.filter (fun c => decide (c ∉ cols))) :=
        (validate_columns_eq_some cols _).mpr ⟨rfl, List.ne_nil_of_mem hc⟩
      rw [this]; rfl
  · intro m hm c
    rcases (validate_columns_eq_some cols m).mp hm with ⟨rfl, _⟩
    simp [List.mem_filter]

/-- Witness for C8 at a concrete header containing only `Month`: the schema
check fires, and `Product` is reported exactly because it is required and
absent. -/
theorem c8_schema_error_iff_missing_witness :
    (validate_columns ["Month"]).isSome ∧
    ("Product" ∈ ["Product", "Leads", "New_Customers", "Churned_Customers",
        "Active_Customers", "Revenue"] ↔
      "Product" ∈ REQUIRED_COLS ∧ "Product" ∉ ["Month"]) :=
  ⟨(c8_schema_error_iff_missing ["Month"]).1.mpr ⟨"Product", by decide, by decide⟩,
   (c8_schema_error_iff_missing ["Month"]).2 _ (by decide) "Product"⟩

/-! ### Claim C9 -/

/-- C9: filtering selects rows of the KPI-augmented table without touching
them — every surviving record, its `rev_mom_growth` cell included, is exactly
a record of the full-table `compute_kpis` output — and a filtered subset with
at most one distinct month has undefined summary MoM growth. -/
theorem c9_filter_preserves_growth_cells (rows : List Row) (p : Option ℕ)
    (s e : ℕ) :
    (∀ a ∈ applyFilter p s e (compute_kpis rows), a ∈ compute_kpis rows) ∧
    ((monthCol (applyFilter p s e (compute_kpis rows))).dedup.length ≤ 1 →
      mom_growth (applyFilter p s e (compute_kpis rows)) = none) := by
  constructor
  · intro a ha
    rw [applyFilter_eq_filter] at ha
    exact List.mem_of_mem_filter ha
  · intro hle
    have hlen : (uniqueMonthsSorted (applyFilter p s e (compute_kpis rows))).length ≤ 1 := by
      unfold uniqueMonthsSorted
      rw [(List.perm_insertionSort _ _).length_eq]
      exact hle
    simp only [mom_growth]
    rw [if_neg (by omega)]

/-- Witness row for C9/C4 style instantiations. -/
def c9wrow : Row :=
  { month := 0, product := 0, leads := num 0, new_customers := num 0,
    churned_customers := num 0, active_customers := num 0, revenue := num 5 }

/-- Witness for C9 at a one-row table filtered to the single month `0`. -/
theorem c9_filter_preserves_growth_cells_witness :
    (∀ a ∈ applyFilter none 0 0 (compute_kpis [c9wrow]),
      a ∈ compute_kpis [c9wrow]) ∧
    mom_growth (applyFilter none 0 0 (compute_kpis [c9wrow])) = none :=
  ⟨(c9_filter_preserves_growth_cells [c9wrow] none 0 0).1,
   (c9_filter_preserves_growth_cells [c9wrow] none 0 0).2 (by decide)⟩

/-! ### Claim C1 -/

/-- Concrete strict parser for C1: accepts exactly the abbreviated-month +
4-digit-year text "Jan-2024" (as `pd.to_datetime(·, format="%b-%Y")` would). -/
def strictEx : String → Option ℕ :=
  fun s => if s = "Jan-2024" then some 0 else none

/-- Concrete general parser for C1: the locale-flexible parse accepts the ISO
date text "2024-01-15" (as `pd.to_datetime` without a format would). -/
def generalEx : String → Option ℕ :=
  fun s => if s = "2024-01-15" then some 42 else none

/-- C1 (code bug): a month value that the strict pattern rejects but the
general parser accepts still raises `DateParseError`, because the code's
fallback `pd.to_datetime` call re-parses the already-coerced `Month` column
(in which every strict failure is already `NaT`) instead of the original raw
text, so the general parser never sees the raw string and can rescue
nothing. -/
theorem c1_fallback_never_sees_raw_text :
    strictEx "2024-01-15" = none ∧
    generalEx "2024-01-15" = some 42 ∧
    parse_month_col strictEx generalEx ["2024-01-15"] = none :=
  ⟨by decide, by decide, by decide⟩

/-! ### Claims C2, C3, C4 -/

/-- Computing the KPI columns of a one-row table. -/
lemma compute_kpis_singleton (r : Row) : compute_kpis [r] = [augment r []] := by
  simp [compute_kpis, sortRows, kpisAux]

/-- pandas means skip `NaN` entries entirely: a `NaN` contributes to neither
the numerator nor the denominator of the mean. -/
lemma pmean_nan_cons (l : List PVal) : pmean (PVal.nan :: l) = pmean l := by
  simp [pmean, pnotna]

/-- Folding IEEE addition over finite cells is plain rational addition. -/
lemma foldl_padd_num (l : List ℚ) : ∀ q0 : ℚ,
    (l.map PVal.num).foldl padd (PVal.num q0) = PVal.num (q0 + l.sum) := by
  induction l with
  | nil => intro q0; simp
  | cons a t ih =>
    intro q0
    simp only [List.map_cons, List.foldl_cons, padd, List.sum_cons]
    rw [ih]
    congr 1
    ring

/-- pandas mean of a nonempty all-finite column is the exact average. -/
lemma pmean_num_list (l : List ℚ) (h : l ≠ []) :
    pmean (l.map PVal.num) = PVal.num (l.sum / l.length) := by
  have hfil : (l.map PVal.num).filter (fun v => pnotna v) = l.map PVal.num :=
    List.filter_eq_self.mpr (by
      intro v hv
      rcases List.mem_map.mp hv with ⟨q, hq, rfl⟩
      simp [pnotna])
  have hne : (l.map PVal.num).isEmpty = false := by
    simp [List.isEmpty_iff, h]
  have hlen : ¬ ((l.length : ℚ) = 0) := by
    have hp : 0 < l.length := List.length_pos.mpr h
    exact_mod_cast hp.ne'
  simp only [pmean, hfil, hne, Bool.false_eq_true, if_false]
  rw [foldl_padd_num]
  simp only [zero_add, List.length_map, pdiv]
  rw [if_neg hlen]

/-- Counterexample record for C2: `Leads = 0` with `New_Customers = 5`. -/
def c2row : Row :=
  { month := 1, product := 0, leads := num 0, new_customers := num 5,
    churned_customers := num 0, active_customers := num 0, revenue := num 8 }

/-- C2 counterexample: a zero denominator with a nonzero numerator does NOT
give a missing value — `conversion_rate = 5 / 0` evaluates to `+inf`, which
`pd.notna` classifies as present (so formatting and means treat it as a
number), refuting the claim that every zero-denominator ratio is
undefined/missing. -/
theorem c2_zero_denominator_counterexample :
    (compute_kpis [c2row]).map (fun a => a.conversion_rate) = [PVal.inf] ∧
    pnotna PVal.inf = true ∧ PVal.inf ≠ PVal.nan :=
  ⟨by decide, by decide, by decide⟩

/-- C2 (amended): ratio computations never raise — they are total on cell
values — and with a zero or missing denominator they yield: `nan` when the
denominator is missing, `nan` when both numerator and denominator are zero or
the numerator is missing, and a signed infinity (a non-missing numeric value)
when the numerator is nonzero; each per-record ratio column of `compute_kpis`
is exactly this cell division of its source columns. -/
theorem c2_ratio_zero_missing_denominator (a : ℚ) (v : PVal) (r : Row) :
    pdiv (PVal.num a) (PVal.num 0) =
      (if a = 0 then PVal.nan else if 0 < a then PVal.inf else PVal.neginf) ∧
    pdiv v PVal.nan = PVal.nan ∧
    pdiv PVal.nan v = PVal.nan ∧
    (∀ x ∈ compute_kpis [r],
      x.conversion_rate = pdiv r.new_customers r.leads ∧
      x.churn_rate = pdiv r.churned_customers r.active_customers ∧
      x.arpu = pdiv r.revenue r.active_customers) := by
  refine ⟨by simp [pdiv], by cases v <;> rfl, by cases v <;> rfl, ?_⟩
  intro x hx
  rw [compute_kpis_singleton] at hx
  rcases List.mem_singleton.mp hx with rfl
  exact ⟨rfl, rfl, rfl⟩

/-- Witness for C2 (amended) at the concrete record `c2row`. -/
theorem c2_ratio_zero_missing_denominator_witness :
    pdiv (PVal.num 2) (PVal.num 0) =
      (if (2 : ℚ) = 0 then PVal.nan else if 0 < (2 : ℚ) then PVal.inf
       else PVal.neginf) ∧
    (augment c2row []).conversion_rate = pdiv c2row.new_customers c2row.leads :=
  ⟨(c2_ratio_zero_missing_denominator 2 PVal.nan c2row).1,
   ((c2_ratio_zero_missing_denominator 2 PVal.nan c2row).2.2.2 _
     (by decide)).1⟩

/-- Counterexample record for C3: `Active_Customers = 0` with positive churned
customers and positive revenue. -/
def c3row : Row :=
  { month := 1, product := 3, leads := num 0, new_customers := num 0,
    churned_customers := num 2, active_customers := num 0, revenue := num 7 }

/-- C3 counterexample: a record with `active_customers = 0` but positive
numerators has churn_rate and arpu equal to `+inf` — not missing — and the
mean over the churn column includes it, evaluating to `+inf` instead of
excluding the record. -/
theorem c3_active_zero_counterexample :
    (compute_kpis [c3row]).map (fun x => (x.churn_rate, x.arpu)) =
      [(PVal.inf, PVal.inf)] ∧
    PVal.inf ≠ PVal.nan ∧
    avg_churn (compute_kpis [c3row]) = PVal.inf :=
  ⟨by decide, by decide, by decide⟩

/-- Division of a finite cell by a zero cell: missing iff the numerator is
zero, `+inf` for a positive numerator. -/
lemma pdiv_num_zero_cases (a : ℚ) :
    (pdiv (PVal.num a) (PVal.num 0) = PVal.nan ↔ a = 0) ∧
    (0 < a → pdiv (PVal.num a) (PVal.num 0) = PVal.inf) := by
  constructor
  · constructor
    · intro h
      by_contra hne
      rcases lt_trichotomy 0 a with hlt | heq | hlt
      · simp [pdiv, hne, hlt] at h
      · exact hne heq.symm
      · simp [pdiv, hne, not_lt.mpr hlt.le] at h
    · intro h; simp [pdiv, h]
  · intro h; simp [pdiv, h.ne', h]

/-- C3 (amended): a record with `active_customers = 0` has missing (`nan`)
churn_rate exactly when its churned-customer count is zero (likewise arpu and
revenue), and `+inf` — included downstream as a number — when the numerator is
positive; mean aggregations do exclude `nan` entries, which contribute to
neither the sum nor the count (so they are not treated as zeros). -/
theorem c3_active_zero_and_mean_exclusion (r : Row)
    (hz : r.active_customers = PVal.num 0)
    (c : ℚ) (hc : r.churned_customers = PVal.num c)
    (v : ℚ) (hv : r.revenue = PVal.num v) (l : List ℚ) :
    (∀ x ∈ compute_kpis [r],
      (x.churn_rate = PVal.nan ↔ c = 0) ∧
      (0 < c → x.churn_rate = PVal.inf) ∧
      (x.arpu = PVal.nan ↔ v = 0) ∧
      (0 < v → x.arpu = PVal.inf)) ∧
    pmean (PVal.nan :: l.map PVal.num) = pmean (l.map PVal.num) ∧
    (l ≠ [] → pmean (PVal.nan :: l.map PVal.num) =
      PVal.num (l.sum / l.length)) := by
  refine ⟨?_, pmean_nan_cons _,
    fun h => by rw [pmean_nan_cons]; exact pmean_num_list l h⟩
  intro x hx
  rw [compute_kpis_singleton] at hx
  rcases List.mem_singleton.mp hx with rfl
  have hch : (augment r []).churn_rate = pdiv (PVal.num c) (PVal.num 0) := by
    simp [augment, hz, hc]
  have har : (augment r []).arpu = pdiv (PVal.num v) (PVal.num 0) := by
    simp [augment, hz, hv]
  rw [hch, har]
  exact ⟨(pdiv_num_zero_cases c).1, (pdiv_num_zero_cases c).2,
    (pdiv_num_zero_cases v).1, (pdiv_num_zero_cases v).2⟩

/-- Witness for C3 (amended) at the concrete record `c3row` and the singleton
mean column `[1]`. -/
theorem c3_active_zero_and_mean_exclusion_witness :
    ((augment c3row []).churn_rate = PVal.inf ∧
     (augment c3row []).arpu = PVal.inf) ∧
    pmean (PVal.nan :: [(1 : ℚ)].map PVal.num) =
      PVal.num ((1 : ℚ) / 1) := by
  have h := c3_active_zero_and_mean_exclusion c3row rfl 2 rfl 7 rfl [1]
  have hm : augment c3row [] ∈ compute_kpis [c3row] := by decide
  refine ⟨⟨(h.1 _ hm).2.1 (by norm_num), (h.1 _ hm).2.2.2 (by norm_num)⟩, ?_⟩
  have h2 := h.2.2 (by simp)
  simpa using h2

/-! ### Claim C4 -/

/-- C4 (code bug): a valid product selector and month range that leave the
filtered subset empty do not produce the claimed graceful degradation: the
means are `nan` and the summary growth is `None` as claimed, and the
per-product table is empty, but total revenue is the number `0` rather than
undefined, and each insight-label computation hits `.iloc[0]` on an empty
frame — the `none` results of `top_rev`/`top_arpu`/`low_churn` model the
raised `IndexError`, i.e. the aggregation crashes. -/
theorem c4_empty_subset_crashes :
    applyFilter none 5 5 (compute_kpis [c9wrow]) = [] ∧
    by_product (applyFilter none 5 5 (compute_kpis [c9wrow])) = [] ∧
    top_rev (by_product (applyFilter none 5 5 (compute_kpis [c9wrow]))) =
      none ∧
    top_arpu (by_product (applyFilter none 5 5 (compute_kpis [c9wrow]))) =
      none ∧
    low_churn (by_product (applyFilter none 5 5 (compute_kpis [c9wrow]))) =
      none ∧
    total_revenue (applyFilter none 5 5 (compute_kpis [c9wrow])) =
      PVal.num 0 ∧
    avg_churn (applyFilter none 5 5 (compute_kpis [c9wrow])) = PVal.nan ∧
    mom_growth (applyFilter none 5 5 (compute_kpis [c9wrow])) = none := by
  decide

/-! ### Claim C6 -/

lemma colMax_eq_none (l : List ℕ) : colMax l = none ↔ l = [] := by
  cases l with
  | nil => simp [colMax]
  | cons x xs =>
    simp only [colMax]
    cases colMax xs <;> simp

lemma colMax_mem : ∀ (l : List ℕ) (m : ℕ), colMax l = some m → m ∈ l
  | x :: xs, m, h => by
    simp only [colMax] at h
    cases hx : colMax xs with
    | none => rw [hx] at h; injection h with h; exact h ▸ List.mem_cons_self x xs
    | some m' =>
      rw [hx] at h; injection h with h
      rcases max_choice x m' with hc | hc
      · rw [hc] at h; exact h ▸ List.mem_cons_self x xs
      · rw [hc] at h; exact List.mem_cons_of_mem x (h ▸ colMax_mem xs m' hx)

lemma colMax_le : ∀ (l : List ℕ) (m : ℕ), colMax l = some m →
    ∀ x ∈ l, x ≤ m
  | x :: xs, m, h => by
    simp only [colMax] at h
    intro y hy
    cases hx : colMax xs with
    | none =>
      rw [hx] at h; injection h with h
      rcases List.mem_cons.mp hy with rfl | hy'
      · exact h.le
      · rw [colMax_eq_none] at hx; rw [hx] at hy'; cases hy'
    | some m' =>
      rw [hx] at h; injection h with h
      rcases List.mem_cons.mp hy with rfl | hy'
      · exact h ▸ le_max_left y m'
      · exact le_trans (colMax_le xs m' hx y hy') (h ▸ le_max_right x m')

lemma colMax_eq_of_mem_le (l : List ℕ) (m : ℕ) (hm : m ∈ l)
    (hle : ∀ x ∈ l, x ≤ m) : colMax l = some m := by
  cases h : colMax l with
  | none =>
    rw [colMax_eq_none] at h
    rw [h] at hm; cases hm
  | some m' =>
    have h1 := colMax_mem _ _ h
    have h2 := colMax_le _ _ h m hm
    have h3 := hle m' h1
    rw [Nat.le_antisymm h2 h3]

lemma uniqueMonthsSorted_mem (f : List AugRow) (x : ℕ) :
    x ∈ uniqueMonthsSorted f ↔ x ∈ monthCol f := by
  unfold uniqueMonthsSorted
  rw [(List.perm_insertionSort _ _).mem_iff, List.mem_dedup]

lemma uniqueMonthsSorted_nodup (f : List AugRow) :
    (uniqueMonthsSorted f).Nodup :=
  ((List.perm_insertionSort _ _).nodup_iff).mpr (List.nodup_dedup _)

lemma uniqueMonthsSorted_sorted (f : List AugRow) :
    (uniqueMonthsSorted f).Sorted (· < ·) := by
  have hs : (uniqueMonthsSorted f).Sorted (· ≤ ·) :=
    List.sorted_insertionSort _ _
  exact (hs.and (uniqueMonthsSorted_nodup f)).imp
    (fun h => lt_of_le_of_ne h.1 h.2)

lemma uniqueMonthsSorted_length (f : List AugRow) :
    (uniqueMonthsSorted f).length = (monthCol f).dedup.length :=
  (List.perm_insertionSort _ _).length_eq

/-- Two distinct members force length at least two. -/
lemma two_le_length_of_mem_ne {l : List ℕ} {a b : ℕ} (ha : a ∈ l)
    (hb : b ∈ l) (hne : a ≠ b) : 2 ≤ l.length := by
  match l with
  | [] => cases ha
  | [x] =>
    rw [List.mem_singleton] at ha hb
    exact absurd (ha.trans hb.symm) hne
  | x :: y :: t => simp

/-- In a strictly ascending list of length at least two, the last element is
the maximum and the second-to-last is the maximum of the rest. -/
lemma sorted_top2 : ∀ (ms : List ℕ), ms.Sorted (· < ·) → 2 ≤ ms.length →
    ∃ L P, ms.getLast? = some L ∧ ms.dropLast.getLast? = some P ∧
      P ∈ ms ∧ L ∈ ms ∧ P < L ∧ (∀ x ∈ ms, x ≤ L) ∧
      (∀ x ∈ ms, x ≠ L → x ≤ P)
  | [], _, hlen => by simp at hlen
  | [a], _, hlen => by simp at hlen
  | [a, b], hs, _ => by
    have hab : a < b := List.rel_of_sorted_cons hs b (List.mem_singleton.mpr rfl)
    refine ⟨b, a, by simp, by simp, by simp, by simp, hab, ?_, ?_⟩
    · intro x hx
      rcases List.mem_cons.mp hx with rfl | hx
      · exact hab.le
      · rw [List.mem_singleton] at hx; omega
    · intro x hx hne
      rcases List.mem_cons.mp hx with rfl | hx
      · exact le_refl x
      · rw [List.mem_singleton] at hx; exact absurd hx hne
  | a :: b :: c :: t, hs, _ => by
    obtain ⟨L, P, h1, h2, h3, h4, h5, h6, h7⟩ :=
      sorted_top2 (b :: c :: t) hs.of_cons (by simp)
    have ha : ∀ x ∈ b :: c :: t, a < x := List.rel_of_sorted_cons hs
    refine ⟨L, P, ?_, ?_, List.mem_cons_of_mem a h3,
      List.mem_cons_of_mem a h4, h5, ?_, ?_⟩
    · rw [List.getLast?_cons_cons]; exact h1
    · rw [List.dropLast_cons₂, List.dropLast_cons₂, List.getLast?_cons_cons]
      rw [List.dropLast_cons₂] at h2
      exact h2
    · intro x hx
      rcases List.mem_cons.mp hx with rfl | hx
      · exact (ha L h4).le
      · exact h6 x hx
    · intro x hx hne
      rcases List.mem_cons.mp hx with rfl | hx
      · exact (ha P h3).le
      · exact h7 x hx hne

lemma foldl_padd_all_num : ∀ (l : List PVal),
    (∀ v ∈ l, ∃ q, v = PVal.num q) → ∀ q0 : ℚ,
    ∃ q, l.foldl padd (PVal.num q0) = PVal.num q
  | [], _, q0 => ⟨q0, rfl⟩
  | v :: t, h, q0 => by
    rcases h v (List.mem_cons_self _ _) with ⟨a, rfl⟩
    rcases foldl_padd_all_num t
      (fun w hw => h w (List.mem_cons_of_mem _ hw)) (q0 + a) with ⟨q, hq⟩
    exact ⟨q, by simpa [padd] using hq⟩

/-- Summing a column of finite cells gives a finite cell. -/
lemma psum_all_num (l : List PVal) (h : ∀ v ∈ l, ∃ q, v = PVal.num q) :
    ∃ q, psum l = PVal.num q := by
  unfold psum
  exact foldl_padd_all_num _ (fun v hv => h v (List.mem_of_mem_filter hv)) 0

lemma sumRevAt_num (f : List AugRow) (m : ℕ)
    (h : ∀ r ∈ f, ∃ q, r.base.revenue = PVal.num q) :
    ∃ q, sumRevAt f m = PVal.num q := by
  unfold sumRevAt
  apply psum_all_num
  intro v hv
  rcases List.mem_map.mp hv with ⟨r, hr, rfl⟩
  exact h r (List.mem_of_mem_filter hr)

/-- C6: the summary MoM growth agrees with its spec-side reading — it compares
the two most recent distinct months of the filtered subset (any pair of
distinct surviving months characterised as "the largest" and "the largest of
the rest" gives exactly the code's result), summing revenue across the rows of
each month; it is `None` whenever fewer than two distinct months survive or
the prior month's summed revenue is zero, and with finite revenue cells a
produced value is never missing. -/
theorem c6_summary_growth_two_most_recent (f : List AugRow) :
    mom_growth f = mom_growth_spec f ∧
    ((monthCol f).dedup.length < 2 → mom_growth f = none) ∧
    (∀ m1 m2, m1 ∈ monthCol f → m2 ∈ monthCol f → m2 < m1 →
      (∀ m ∈ monthCol f, m ≤ m1) →
      (∀ m ∈ monthCol f, m ≠ m1 → m ≤ m2) →
      mom_growth f =
        (if sumRevAt f m2 = PVal.num 0 then none
         else some (pdiv (psub (sumRevAt f m1) (sumRevAt f m2))
           (sumRevAt f m2)))) ∧
    ((∀ r ∈ f, ∃ q, r.base.revenue = PVal.num q) →
      ∀ gv, mom_growth f = some gv → gv ≠ PVal.nan) := by
  by_cases h2 : 2 ≤ (uniqueMonthsSorted f).length
  · obtain ⟨L, P, hL1, hP1, hPmem, hLmem, hPL, hLub, hPub⟩ :=
      sorted_top2 _ (uniqueMonthsSorted_sorted f) h2
    have hLcm : colMax (monthCol f) = some L :=
      colMax_eq_of_mem_le _ _ ((uniqueMonthsSorted_mem f L).mp hLmem)
        (fun x hx => hLub x ((uniqueMonthsSorted_mem f x).mpr hx))
    have hcode : mom_growth f =
        (if truthy (sumRevAt f P) then
          some (pdiv (psub (sumRevAt f L) (sumRevAt f P)) (sumRevAt f P))
        else none) := by
      simp only [mom_growth]
      rw [if_pos h2, hLcm, hP1]
    have hLdd : colMax (monthCol f).dedup = some L :=
      colMax_eq_of_mem_le _ _
        (List.mem_dedup.mpr ((uniqueMonthsSorted_mem f L).mp hLmem))
        (fun x hx =>
          hLub x ((uniqueMonthsSorted_mem f x).mpr (List.mem_dedup.mp hx)))
    have hPdd : colMax ((monthCol f).dedup.filter
        (fun m => decide (m ≠ L))) = some P := by
      apply colMax_eq_of_mem_le
      · exact List.mem_filter.mpr
          ⟨List.mem_dedup.mpr ((uniqueMonthsSorted_mem f P).mp hPmem),
           decide_eq_true (Nat.ne_of_lt hPL)⟩
      · intro x hx
        rcases List.mem_filter.mp hx with ⟨hx1, hx2⟩
        exact hPub x
          ((uniqueMonthsSorted_mem f x).mpr (List.mem_dedup.mp hx1))
          (of_decide_eq_true hx2)
    have hspec : mom_growth_spec f =
        (if sumRevAt f P = PVal.num 0 then none
         else some (pdiv (psub (sumRevAt f L) (sumRevAt f P))
           (sumRevAt f P))) := by
      simp only [mom_growth_spec, hLdd, hPdd]
    refine ⟨?_, ?_, ?_, ?_⟩
    · rw [hcode, hspec]
      by_cases hz : sumRevAt f P = PVal.num 0
      · simp [truthy, hz]
      · simp [truthy, hz]
    · intro hlt
      rw [uniqueMonthsSorted_length] at h2
      omega
    · intro m1 m2 hm1 hm2 hlt hub1 hub2
      have hLm1 : L = m1 :=
        le_antisymm (hub1 L ((uniqueMonthsSorted_mem f L).mp hLmem))
          (hLub m1 ((uniqueMonthsSorted_mem f m1).mpr hm1))
      have hPm2 : P = m2 := by
        apply le_antisymm
        · exact hub2 P ((uniqueMonthsSorted_mem f P).mp hPmem) (by omega)
        · exact hPub m2 ((uniqueMonthsSorted_mem f m2).mpr hm2) (by omega)
      rw [hcode, hLm1, hPm2]
      by_cases hz : sumRevAt f m2 = PVal.num 0
      · simp [truthy, hz]
      · simp [truthy, hz]
    · intro hfin gv hgv
      rcases sumRevAt_num f L hfin with ⟨A, hA⟩
      rcases sumRevAt_num f P hfin with ⟨B, hB⟩
      rw [hcode, hA, hB] at hgv
      by_cases hz : B = 0
      · rw [hz] at hgv; simp [truthy] at hgv
      · have ht : truthy (PVal.num B) = true := by simp [truthy, hz]
        rw [if_pos ht] at hgv
        injection hgv with hgv
        rw [← hgv]
        simp [psub, padd, pneg, pdiv, hz]
  · have hnone : mom_growth f = none := by
      simp only [mom_growth]
      rw [if_neg h2]
    have hlen1 : (monthCol f).dedup.length ≤ 1 := by
      rw [← uniqueMonthsSorted_length]
      omega
    have hspecnone : mom_growth_spec f = none := by
      simp only [mom_growth_spec]
      rcases Nat.le_one_iff_eq_zero_or_eq_one.mp hlen1 with h0 | h1
      · rw [List.length_eq_zero.mp h0]
        simp [colMax]
      · rcases List.length_eq_one.mp h1 with ⟨x, hx⟩
        rw [hx]
        have hcm : colMax [x] = some x := by simp [colMax]
        have hfe : List.filter (fun m => decide (m ≠ x)) [x] = [] := by simp
        simp [hcm, hfe, colMax]
    refine ⟨by rw [hnone, hspecnone], fun _ => hnone, ?_, ?_⟩
    · intro m1 m2 hm1 hm2 hlt hub1 hub2
      exfalso
      have h2d : 2 ≤ (monthCol f).dedup.length :=
        two_le_length_of_mem_ne (List.mem_dedup.mpr hm1)
          (List.mem_dedup.mpr hm2) (by omega)
      omega
    · intro _ gv hgv
      rw [hnone] at hgv
      cases hgv

/-- Witness rows for C6: one product across months 1 and 2. -/
def w61 : Row :=
  { month := 1, product := 0, leads := num 0, new_customers := num 0,
    churned_customers := num 0, active_customers := num 0, revenue := num 10 }

def w62 : Row :=
  { month := 2, product := 0, leads := num 0, new_customers := num 0,
    churned_customers := num 0, active_customers := num 0, revenue := num 15 }

/-- Witness for C6 at a concrete two-month table, instantiating the
two-most-recent-months characterisation with months 2 and 1. -/
theorem c6_summary_growth_two_most_recent_witness :
    (2 : ℕ) ∈ monthCol (compute_kpis [w61, w62]) ∧
    (1 : ℕ) ∈ monthCol (compute_kpis [w61, w62]) ∧
    mom_growth (compute_kpis [w61, w62]) =
      (if sumRevAt (compute_kpis [w61, w62]) 1 = PVal.num 0 then none
       else some (pdiv (psub (sumRevAt (compute_kpis [w61, w62]) 2)
         (sumRevAt (compute_kpis [w61, w62]) 1))
         (sumRevAt (compute_kpis [w61, w62]) 1))) :=
  ⟨by decide, by decide,
   (c6_summary_growth_two_most_recent (compute_kpis [w61, w62])).2.2.1 2 1
     (by decide) (by decide) (by decide) (by decide) (by decide)⟩

/-! ### Claim C10 -/

lemma kpisAux_map_base : ∀ (seen rest : List Row),
    (kpisAux seen rest).map (fun a => a.base) = rest
  | _, [] => rfl
  | seen, r :: rs => by
    simp only [kpisAux, List.map_cons]
    rw [kpisAux_map_base (r :: seen) rs]
    rfl

/-- The KPI-augmented table carries exactly the input records (reordered by
the sort), original column values untouched. -/
lemma compute_kpis_base_perm (rows : List Row) :
    ((compute_kpis rows).map (fun a => a.base)).Perm rows := by
  unfold compute_kpis sortRows
  rw [kpisAux_map_base]
  exact List.perm_insertionSort _ _

lemma parse_month_col_length (strict general : String → Option ℕ)
    (col : List String) (ms : List ℕ)
    (h : parse_month_col strict general col = some ms) :
    ms.length = col.length := by
  simp only [parse_month_col] at h
  by_cases h1 : (List.map strict col).any (fun c => c.isNone)
  · rw [if_pos h1] at h
    split at h
    · cases h
    · injection h with h
      rw [← h, List.length_map, List.length_map, List.length_map]
  · rw [if_neg h1] at h
    split at h
    · cases h
    · injection h with h
      rw [← h, List.length_map, List.length_map]

/-- Every column of a raw record other than `Month`. -/
def rawOtherCols (r : RawRow) : ℕ × PVal × PVal × PVal × PVal × PVal :=
  (r.product, r.leads, r.new_customers, r.churned_customers,
   r.active_customers, r.revenue)

/-- Every column of a parsed record other than `Month`. -/
def rowOtherCols (r : Row) : ℕ × PVal × PVal × PVal × PVal × PVal :=
  (r.product, r.leads, r.new_customers, r.churned_customers,
   r.active_customers, r.revenue)

lemma parse_month_rows_other_cols (strict general : String → Option ℕ)
    (raws : List RawRow) (out : List Row)
    (h : parse_month_rows strict general raws = some out) :
    out.map rowOtherCols = raws.map rawOtherCols ∧
    out.length = raws.length := by
  simp only [parse_month_rows] at h
  cases hpc : parse_month_col strict general
      (raws.map (fun r => r.month_text)) with
  | none => rw [hpc] at h; cases h
  | some ms =>
    rw [hpc] at h
    injection h with h
    have hlen : ms.length = raws.length := by
      have hl := parse_month_col_length _ _ _ _ hpc
      simpa using hl
    constructor
    · rw [← h, List.map_map]
      have hcomp : (rowOtherCols ∘ fun p : RawRow × ℕ => toRow p.1 p.2) =
          rawOtherCols ∘ Prod.fst := by
        funext p; rfl
      rw [hcomp, ← List.map_map]
      rw [List.map_fst_zip _ _ (by omega)]
    · rw [← h, List.length_map, List.length_zip]
      omega

/-- C10: `parse_month` returns a table of the same length whose non-Month
columns are pointwise identical to the input's (it only rewrites the `Month`
column of a copy), and `compute_kpis` returns the same records — as a
permutation induced by the sort, with every original column value unchanged —
extended with exactly the four derived fields of `AugRow`; neither operation
can mutate its argument in this embedding. -/
theorem c10_parse_and_kpis_preserve_rows (strict general : String → Option ℕ)
    (raws : List RawRow) (out : List Row)
    (h : parse_month_rows strict general raws = some out)
    (rows : List Row) :
    out.map rowOtherCols = raws.map rawOtherCols ∧
    out.length = raws.length ∧
    ((compute_kpis rows).map (fun a => a.base)).Perm rows ∧
    (compute_kpis rows).length = rows.length := by
  obtain ⟨h1, h2⟩ := parse_month_rows_other_cols strict general raws out h
  have hp := compute_kpis_base_perm rows
  refine ⟨h1, h2, hp, ?_⟩
  have hl := hp.length_eq
  simpa using hl

/-- Concrete raw record for the C10 witness. -/
def c10raw : RawRow :=
  { month_text := "Jan-2024", product := 0, leads := num 0,
    new_customers := num 0, churned_customers := num 0,
    active_customers := num 0, revenue := num 3 }

/-- Witness for C10 at a one-row raw table whose month the strict pattern
parses. -/
theorem c10_parse_and_kpis_preserve_rows_witness :
    [toRow c10raw 0].map rowOtherCols = [c10raw].map rawOtherCols ∧
    ((compute_kpis [w61]).map (fun a => a.base)).Perm [w61] :=
  ⟨(c10_parse_and_kpis_preserve_rows strictEx generalEx [c10raw]
      [toRow c10raw 0] (by decide) [w61]).1,
   (c10_parse_and_kpis_preserve_rows strictEx generalEx [c10raw]
      [toRow c10raw 0] (by decide) [w61]).2.2.1⟩

/-! ### Claim C5 -/

/-- Sort key of a record, the (Product, Month) pair. -/
def rowKey (r : Row) : ℕ × ℕ := (r.product, r.month)

lemma rowKeyLe_def (a b : Row) : rowKeyLe a b ↔
    (a.product < b.product ∨ (a.product = b.product ∧ a.month ≤ b.month)) :=
  Iff.rfl

lemma firstWith_eq_none_iff (p : ℕ) : ∀ (l : List Row),
    firstWith p l = none ↔ ∀ x ∈ l, x.product ≠ p
  | [] => by simp [firstWith]
  | s :: ss => by
    simp only [firstWith]
    by_cases hs : s.product = p
    · rw [if_pos hs]
      simp [hs]
    · rw [if_neg hs]
      rw [firstWith_eq_none_iff p ss]
      constructor
      · intro h x hx
        rcases List.mem_cons.mp hx with rfl | hx'
        · exact hs
        · exact h x hx'
      · intro h x hx
        exact h x (List.mem_cons_of_mem _ hx)

/-- The nearest preceding same-product row found by the `pct_change` walk is,
when the processed prefix is reverse-sorted, the latest-month same-product row
of the prefix. -/
lemma firstWith_spec (p : ℕ) : ∀ (l : List Row) (z : Row),
    l.reverse.Sorted rowKeyLe → firstWith p l = some z →
    z ∈ l ∧ z.product = p ∧ ∀ x ∈ l, x.product = p → x.month ≤ z.month
  | [], z, _, h => by cases h
  | s :: ss, z, hsort, h => by
    have hsplit : ss.reverse.Sorted rowKeyLe ∧
        ∀ x ∈ ss.reverse, rowKeyLe x s := by
      rw [List.reverse_cons] at hsort
      rcases List.pairwise_append.mp hsort with ⟨h1, _, h3⟩
      exact ⟨h1, fun x hx => h3 x hx s (List.mem_singleton.mpr rfl)⟩
    simp only [firstWith] at h
    by_cases hs : s.product = p
    · rw [if_pos hs] at h
      injection h with h
      subst h
      refine ⟨List.mem_cons_self _ _, hs, ?_⟩
      intro x hx hxp
      rcases List.mem_cons.mp hx with rfl | hx'
      · exact le_refl _
      · rcases (rowKeyLe_def x s).mp
          (hsplit.2 x (List.mem_reverse.mpr hx')) with hlt | ⟨_, hle⟩
        · rw [hxp, ← hs] at hlt
          exact absurd hlt (lt_irrefl _)
        · exact hle
    · rw [if_neg hs] at h
      obtain ⟨hz1, hz2, hz3⟩ := firstWith_spec p ss z hsplit.1 h
      refine ⟨List.mem_cons_of_mem _ hz1, hz2, ?_⟩
      intro x hx hxp
      rcases List.mem_cons.mp hx with rfl | hx'
      · exact absurd hxp hs
      · exact hz3 x hx' hxp

/-- A permutation of a table with duplicate-free keys has pairwise distinct
keys. -/
lemma keys_pairwise_ne {rows l : List Row} (hperm : l.Perm rows)
    (hnd : (rows.map rowKey).Nodup) :
    l.Pairwise (fun a b => rowKey a ≠ rowKey b) := by
  have hl : (l.map rowKey).Nodup := ((hperm.map rowKey).nodup_iff).mpr hnd
  exact List.pairwise_map.mp hl

/-- With duplicate-free keys, two member records with the same key coincide. -/
lemma eq_of_key_eq {rows : List Row} (hnd : (rows.map rowKey).Nodup)
    {x y : Row} (hx : x ∈ rows) (hy : y ∈ rows)
    (hk : rowKey x = rowKey y) : x = y :=
  List.inj_on_of_nodup_map hnd hx hy hk

/-- Walk invariant for the per-product `pct_change`: along the sorted frame,
each emitted growth cell matches the spec-side predecessor (the same-product
row with the latest strictly-earlier month, taken over the whole table). -/
lemma kpisAux_growth (rows : List Row) (hnd : (rows.map rowKey).Nodup) :
    ∀ (rest seen : List Row), (seen.reverse ++ rest).Perm rows →
      (seen.reverse ++ rest).Sorted rowKeyLe →
      ∀ a ∈ kpisAux seen rest,
        a.rev_mom_growth =
          (match prevRowSpec rows a.base with
           | none => PVal.nan
           | some p => psub (pdiv a.base.revenue p.revenue) (PVal.num 1)) := by
  intro rest
  induction rest with
  | nil =>
    intro seen _ _ a ha
    simp [kpisAux] at ha
  | cons r rs ih =>
    intro seen hperm hsort a ha
    have hlist : (r :: seen).reverse ++ rs = seen.reverse ++ r :: rs := by
      simp [List.reverse_cons, List.append_assoc]
    simp only [kpisAux] at ha
    rcases List.mem_cons.mp ha with rfl | ha'
    · rcases List.pairwise_append.mp hsort with ⟨hs_seen, hs_rest, hcross⟩
      have hkeys := keys_pairwise_ne hperm hnd
      rcases List.pairwise_append.mp hkeys with ⟨_, hk_rest, hk_cross⟩
      have hk_head : ∀ y ∈ rs, rowKey r ≠ rowKey y :=
        (List.pairwise_cons.mp hk_rest).1
      have hF1 : ∀ x ∈ seen, x.product = r.product → x.month < r.month := by
        intro x hx hxp
        have h1 := hcross x (List.mem_reverse.mpr hx) r (List.mem_cons_self _ _)
        have h2 := hk_cross x (List.mem_reverse.mpr hx) r
          (List.mem_cons_self _ _)
        rcases (rowKeyLe_def x r).mp h1 with hlt | ⟨heq, hle⟩
        · rw [hxp] at hlt
          exact absurd hlt (lt_irrefl _)
        · refine lt_of_le_of_ne hle ?_
          intro hm
          exact h2 (by simp [rowKey, heq, hm])
      have hF2 : ∀ y ∈ rs, y.product = r.product → r.month < y.month := by
        intro y hy hyp
        have h1 := List.rel_of_sorted_cons hs_rest y hy
        have h2 := hk_head y hy
        rcases (rowKeyLe_def r y).mp h1 with hlt | ⟨heq, hle⟩
        · rw [hyp] at hlt
          exact absurd hlt (lt_irrefl _)
        · refine lt_of_le_of_ne hle ?_
          intro hm
          exact h2 (by simp [rowKey, heq, hm])
      simp only [augment, pctChange]
      cases hfw : firstWith r.product seen with
      | none =>
        have hnone := (firstWith_eq_none_iff _ _).mp hfw
        have hfe : rows.filter (fun x => decide (x.product = r.product) &&
            decide (x.month < r.month)) = [] := by
          rw [List.filter_eq_nil_iff]
          intro y hy hpred
          simp only [Bool.and_eq_true, decide_eq_true_eq] at hpred
          have hyp : y.product = r.product := hpred.1
          have hym : y.month < r.month := hpred.2
          have hybig : y ∈ seen.reverse ++ r :: rs := (hperm.mem_iff).mpr hy
          rcases List.mem_append.mp hybig with hy1 | hy2
          · exact hnone y (List.mem_reverse.mp hy1) hyp
          · rcases List.mem_cons.mp hy2 with rfl | hy3
            · exact absurd hym (lt_irrefl _)
            · exact absurd hym (not_lt.mpr (hF2 y hy3 hyp).le)
        have hps : prevRowSpec rows r = none := by
          unfold prevRowSpec
          rw [hfe]
          rfl
        rw [hps]
      | some z =>
        obtain ⟨hz_mem, hz_p, hz_max⟩ := firstWith_spec _ seen z hs_seen hfw
        have hzlt : z.month < r.month := hF1 z hz_mem hz_p
        have hz_rows : z ∈ rows := (hperm.mem_iff).mp
          (List.mem_append.mpr (Or.inl (List.mem_reverse.mpr hz_mem)))
        have hz_filter : z ∈ rows.filter (fun x =>
            decide (x.product = r.product) && decide (x.month < r.month)) :=
          List.mem_filter.mpr ⟨hz_rows, by simp [hz_p, hzlt]⟩
        cases hax : List.argmax (fun x => x.month) (rows.filter (fun x =>
            decide (x.product = r.product) && decide (x.month < r.month))) with
        | none =>
          rw [List.argmax_eq_none] at hax
          rw [hax] at hz_filter
          cases hz_filter
        | some w =>
          have hw_filter : w ∈ rows.filter (fun x =>
              decide (x.product = r.product) && decide (x.month < r.month)) :=
            List.argmax_mem (Option.mem_def.mpr hax)
          have hw_rows := List.mem_of_mem_filter hw_filter
          have hw_pred := List.of_mem_filter hw_filter
          simp only [Bool.and_eq_true, decide_eq_true_eq] at hw_pred
          have hw_p : w.product = r.product := hw_pred.1
          have hw_m : w.month < r.month := hw_pred.2
          have hw_seen : w ∈ seen := by
            have hwbig : w ∈ seen.reverse ++ r :: rs :=
              (hperm.mem_iff).mpr hw_rows
            rcases List.mem_append.mp hwbig with h1 | h2
            · exact List.mem_reverse.mp h1
            · rcases List.mem_cons.mp h2 with rfl | h3
              · exact absurd hw_m (lt_irrefl _)
              · exact absurd hw_m (not_lt.mpr (hF2 w h3 hw_p).le)
          have hwz : w.month ≤ z.month := hz_max w hw_seen hw_p
          have hzw : z.month ≤ w.month :=
            List.le_of_mem_argmax hz_filter (Option.mem_def.mpr hax)
          have hkeq : rowKey w = rowKey z := by
            simp only [rowKey]
            rw [hw_p, hz_p, le_antisymm hwz hzw]
          have hwz_eq : w = z := eq_of_key_eq hnd hw_rows hz_rows hkeq
          have hps : prevRowSpec rows r = some w := by
            unfold prevRowSpec
            exact hax
          rw [hps, hwz_eq]
    · exact ih (r :: seen) (by rw [hlist]; exact hperm)
        (by rw [hlist]; exact hsort) a ha'

/-- On finite cells pandas `pct_change` (`cur/prev - 1`) coincides with the
claim's formula `(cur - prev)/prev`, zero-denominator cases included. -/
lemma pct_formula_num (a b : ℚ) :
    psub (pdiv (PVal.num a) (PVal.num b)) (PVal.num 1) =
      pdiv (psub (PVal.num a) (PVal.num b)) (PVal.num b) := by
  by_cases hb : b = 0
  · subst hb
    by_cases ha : a = 0
    · subst ha
      simp [pdiv, psub, padd, pneg]
    · rcases lt_trichotomy 0 a with h | h | h
      · simp [pdiv, psub, padd, pneg, ha, h]
      · exact absurd h.symm ha
      · simp [pdiv, psub, padd, pneg, ha, h, not_lt.mpr h.le]
  · have hsub : psub (PVal.num a) (PVal.num b) = PVal.num (a - b) := by
      simp [psub, padd, pneg]
      ring
    rw [hsub]
    simp only [pdiv, psub, padd, pneg, if_neg hb]
    have : a / b + -1 = (a - b) / b := by
      field_simp
      ring
    rw [this]

/-- C5: over any table with one row per (product, month) pair and finite
revenues, the `rev_mom_growth` of each output record is missing exactly when
the record's month is the earliest observed month of its product, and
otherwise equals `(revenue - revenue_prev) / revenue_prev` where the
predecessor is that same product's chronologically preceding observed row —
never a row of a different product. -/
theorem c5_growth_per_product (rows : List Row)
    (hnd : (rows.map rowKey).Nodup)
    (hfin : ∀ r ∈ rows, ∃ q, r.revenue = PVal.num q) :
    ∀ a ∈ compute_kpis rows,
      a.rev_mom_growth =
        (match prevRowSpec rows a.base with
         | none => PVal.nan
         | some p => pdiv (psub a.base.revenue p.revenue) p.revenue) := by
  intro a ha
  have hmain := kpisAux_growth rows hnd (sortRows rows) []
    (by simpa using List.perm_insertionSort rowKeyLe rows)
    (by simpa using List.sorted_insertionSort rowKeyLe rows) a ha
  rw [hmain]
  cases hprev : prevRowSpec rows a.base with
  | none => rfl
  | some p =>
    have hbase : a.base ∈ rows := by
      have hp := compute_kpis_base_perm rows
      exact (hp.mem_iff).mp (List.mem_map_of_mem _ ha)
    have hpmem : p ∈ rows := by
      have hm := List.argmax_mem (Option.mem_def.mpr hprev)
      exact List.mem_of_mem_filter hm
    rcases hfin _ hbase with ⟨qa, hqa⟩
    rcases hfin _ hpmem with ⟨qp, hqp⟩
    simp only [hqa, hqp]
    exact pct_formula_num qa qp

/-- Witness for C5 at the concrete two-row, one-product table. -/
theorem c5_growth_per_product_witness :
    (([w61, w62].map rowKey).Nodup) ∧
    (∀ r ∈ [w61, w62], ∃ q, r.revenue = PVal.num q) ∧
    (∀ a ∈ compute_kpis [w61, w62],
      a.rev_mom_growth =
        (match prevRowSpec [w61, w62] a.base with
         | none => PVal.nan
         | some p => pdiv (psub a.base.revenue p.revenue) p.revenue)) := by
  have hfin : ∀ r ∈ [w61, w62], ∃ q, r.revenue = PVal.num q := by
    intro r hr
    rcases List.mem_cons.mp hr with rfl | hr
    · exact ⟨10, rfl⟩
    · rw [List.mem_singleton] at hr
      subst hr
      exact ⟨15, rfl⟩
  exact ⟨by decide, hfin,
    c5_growth_per_product [w61, w62] (by decide) hfin⟩
